import Mathlib

/-!
Shallow embedding of `uniqueint.py` (class `UniqueInt`): the line parsing
pipeline (`strip`, `is_integer`, `processLine`), the unique-integer collector
(`readUniqueIntegers`), the in-place quicksort (`partition`, `quicksort`) and
an effect-level model of `processFile`.  Strings are modelled as `List Char`,
Python ints as `Int`, Python exceptions as an explicit `Except` outcome.
-/

deriving instance DecidableEq for Except

namespace UniqueInt

/-- Python exceptions that the embedded fragments can raise. -/
inductive PyExn where
  | valueError
  | indexError
deriving DecidableEq, Repr

/-- Decimal digit characters, i.e. the characters accepted by Python's
`int(·)` conversion in base 10 (Unicode category Nd).  The model restricts
the repertoire to the ASCII digits `'0'..'9'`; no other Nd character appears
in this development. -/
def pyDecimalChar (c : Char) : Bool :=
  c.isDigit

/-- Characters classified as digits by Python's `str.isdigit` (Unicode
`Numeric_Type=Digit` or `Decimal`).  This is a strict superset of
`pyDecimalChar`: CPython classifies e.g. the superscript digits
U+00B9, U+00B2, U+00B3 as digits although `int(·)` rejects them.  The model
restricts the repertoire to the ASCII digits plus those three superscripts. -/
def pyDigitChar (c : Char) : Bool :=
  c.isDigit || c = '¹' || c = '²' || c = '³'

/-- Python's `s.isdigit()`: true iff `s` is non-empty and every character is
a digit character. -/
def pyIsdigit (s : List Char) : Bool :=
  !s.isEmpty && s.all pyDigitChar

/-- Embedding of `UniqueInt.is_integer` (src/uniqueint.py:118-128).
`s[0]` raises `IndexError` on the empty string; otherwise an optional single
leading sign is skipped and the rest is tested with `str.isdigit`. -/
def is_integer (s : List Char) : Except PyExn Bool :=
  match s with
  | [] => .error .indexError
  | c :: rest =>
    if c = '-' ∨ c = '+' then .ok (pyIsdigit rest)
    else .ok (pyIsdigit (c :: rest))

/-- Numeric value of a (decimal) digit string, most significant digit first. -/
def digitsVal (s : List Char) : Nat :=
  s.foldl (fun n c => 10 * n + (c.toNat - '0'.toNat)) 0

/-- Python's `int(s)` on an already-trimmed string: an optional single sign
followed by a non-empty run of decimal digits; anything else raises
`ValueError`.  (Underscore separators and surrounding whitespace, which
Python also tolerates, cannot reach `int` in this program and are omitted.) -/
def pyInt (s : List Char) : Except PyExn Int :=
  match s with
  | [] => .error .valueError
  | c :: rest =>
    if c = '-' then
      if !rest.isEmpty && rest.all pyDecimalChar then .ok (-(digitsVal rest : Int))
      else .error .valueError
    else if c = '+' then
      if !rest.isEmpty && rest.all pyDecimalChar then .ok (digitsVal rest : Int)
      else .error .valueError
    else
      if !(c :: rest).isEmpty && (c :: rest).all pyDecimalChar then
        .ok (digitsVal (c :: rest) : Int)
      else .error .valueError

/-- The three characters treated as whitespace by `UniqueInt.strip`
(`space_characters = (' ', '\t', '\n')`, src/uniqueint.py:137). -/
def isSpaceChar (c : Char) : Bool :=
  c = ' ' || c = '\t' || c = '\n'

/-- First while loop of `UniqueInt.strip`: advance `i` over leading
whitespace (src/uniqueint.py:138-140). -/
def firstNonWs (s : List Char) (i : Nat) : Nat :=
  if h : i < s.length ∧ isSpaceChar (s.getD i ' ') then firstNonWs s (i + 1)
  else i
termination_by s.length - i
decreasing_by omega

/-- Second while loop of `UniqueInt.strip`: move `j` down over trailing
whitespace; `j` may reach `-1` (src/uniqueint.py:141-144). -/
def lastNonWs (s : List Char) (j : Int) : Int :=
  if h : 0 ≤ j ∧ isSpaceChar (s.getD j.toNat ' ') then lastNonWs s (j - 1)
  else j
termination_by (j + 1).toNat
decreasing_by omega

/-- Embedding of `UniqueInt.strip` (src/uniqueint.py:130-147): scan `i` up
over leading whitespace, `j` down over trailing whitespace, then rebuild the
substring `s[i..j]` (the `for k in range(i, j + 1)` loop). -/
def strip (s : List Char) : List Char :=
  let i := firstNonWs s 0
  let j := lastNonWs s ((s.length : Int) - 1)
  (List.range' i (j + 1 - (i : Int)).toNat).map (fun k => s.getD k ' ')

/-- Embedding of `UniqueInt.processLine` (src/uniqueint.py:76-96): strip the
line, skip it when empty, validate with `is_integer`, convert with `int` and
apply the `[-1023, 1024]` range filter.  `.ok none` is Python's `None`. -/
def processLine (line : List Char) : Except PyExn (Option Int) :=
  let stripped := strip line
  if stripped.isEmpty then .ok none
  else
    match is_integer stripped with
    | .error e => .error e
    | .ok false => .ok none
    | .ok true =>
      match pyInt stripped with
      | .error e => .error e
      | .ok n => if -1023 ≤ n ∧ n ≤ 1024 then .ok (some n) else .ok none

/-- Insertion of a key into the `unique_dict` of `readUniqueIntegers`
(`unique_dict[integer] = True`): Python 3 dicts keep first-insertion order,
so a present key is a no-op and a new key is appended. -/
def insertKey (acc : List Int) (v : Int) : List Int :=
  if v ∈ acc then acc else acc ++ [v]

/-- The `for line in file` loop of `readUniqueIntegers`, threading the
accumulated dict keys; an exception escaping `processLine` aborts the loop. -/
def collectAux (acc : List Int) : List (List Char) → Except PyExn (List Int)
  | [] => .ok acc
  | line :: rest =>
    match processLine line with
    | .error e => .error e
    | .ok none => collectAux acc rest
    | .ok (some v) => collectAux (insertKey acc v) rest

/-- Embedding of `UniqueInt.readUniqueIntegers` (src/uniqueint.py:53-74) over
the sequence of lines of the already-opened file; the `IOError` branch (file
cannot be opened) is modelled at the `processFile` level. -/
def readUniqueIntegers (lines : List (List Char)) : Except PyExn (List Int) :=
  collectAux [] lines

/-- One Python swap `arr[a], arr[b] = arr[b], arr[a]`. -/
def swap (arr : List Int) (a b : Nat) : List Int :=
  (arr.set a (arr.getD b 0)).set b (arr.getD a 0)

/-- The `for j in range(low, high)` loop of `UniqueInt.partition`
(src/uniqueint.py:178-181), threading the array and the index `i`
(which starts at `low - 1` and may therefore be `-1`). -/
def partitionLoop (arr : List Int) (pivot : Int) (i : Int) (j high : Nat) :
    List Int × Int :=
  if j < high then
    if arr.getD j 0 ≤ pivot then
      partitionLoop (swap arr (i + 1).toNat j) pivot (i + 1) (j + 1) high
    else
      partitionLoop arr pivot i (j + 1) high
  else (arr, i)
termination_by high - j

/-- Embedding of `UniqueInt.partition` (src/uniqueint.py:168-184): Lomuto
partition with `arr[high]` as pivot; returns the updated array and the final
pivot position `i + 1`. -/
def partition (arr : List Int) (low high : Nat) : List Int × Nat :=
  let pivot := arr.getD high 0
  let r := partitionLoop arr pivot ((low : Int) - 1) low high
  (swap r.1 (r.2 + 1).toNat high, (r.2 + 1).toNat)

/-- The returned pivot position lies in `[low, high]`; this is pure index
arithmetic of the loop (`i` starts at `low - 1`, increases at most once per
iteration of `j ∈ [low, high)`), independent of the array contents. -/
theorem partitionLoop_idx (pivot : Int) :
    ∀ (fuel : Nat) (arr : List Int) (i : Int) (j high : Nat), high - j ≤ fuel →
      -1 ≤ i → i < (j : Int) →
      i ≤ (partitionLoop arr pivot i j high).2 ∧
        (partitionLoop arr pivot i j high).2 < (max j high : Int) := by
  intro fuel
  induction fuel with
  | zero =>
    intro arr i j high hf h0 hij
    have hj : ¬ j < high := by omega
    rw [partitionLoop, if_neg hj]
    simp only
    omega
  | succ n ih =>
    intro arr i j high hf h0 hij
    rw [partitionLoop]
    by_cases hj : j < high
    · rw [if_pos hj]
      by_cases hc : arr.getD j 0 ≤ pivot
      · rw [if_pos hc]
        have h := ih (swap arr (i + 1).toNat j) (i + 1) (j + 1) high
          (by omega) (by omega) (by omega)
        constructor
        · omega
        · have : (max (j + 1) high : Int) = max j high := by omega
          omega
      · rw [if_neg hc]
        have h := ih arr i (j + 1) high (by omega) h0 (by omega)
        have : (max (j + 1) high : Int) = max j high := by omega
        omega
    · rw [if_neg hj]
      simp only
      omega

/-- Pivot-position bounds for `partition`: with `low ≤ high` the returned
index lies in `[low, high]`. -/
theorem partition_idx {arr : List Int} {low high : Nat} (h : low ≤ high) :
    low ≤ (partition arr low high).2 ∧ (partition arr low high).2 ≤ high := by
  have hh := partitionLoop_idx (arr.getD high 0) (high - low) arr
    ((low : Int) - 1) low high (by omega) (by omega) (by omega)
  unfold partition
  simp only
  omega

/-- Embedding of `UniqueInt.quicksort` (src/uniqueint.py:186-200).  `low` is
a natural number (the program only ever calls it with `low ≥ 0`); `high` is
an integer because the top-level call passes `len(arr) - 1` and the left
recursion passes `pi - 1`, both of which can be `-1`. -/
def quicksort (arr : List Int) (low : Nat) (high : Int) : List Int :=
  if h : (low : Int) < high then
    let p := partition arr low high.toNat
    let arr1 := quicksort p.1 low ((p.2 : Int) - 1)
    quicksort arr1 (p.2 + 1) high
  else arr
termination_by (high + 1 - low).toNat
decreasing_by
  · have hb : low ≤ high.toNat := by omega
    have := @partition_idx arr low high.toNat hb
    omega
  · have hb : low ≤ high.toNat := by omega
    have := @partition_idx arr low high.toNat hb
    omega


/-- Refinement definition, following the spec's words for `StringTrim`:
remove leading occurrences of the three whitespace characters, then remove
trailing ones (via reversal), keeping the interior unchanged. -/
def trimSpec (s : List Char) : List Char :=
  ((s.dropWhile isSpaceChar).reverse.dropWhile isSpaceChar).reverse

theorem dropWhile_eq_drop (p : Char → Bool) :
    ∀ l : List Char, l.dropWhile p = l.drop (l.takeWhile p).length := by
  intro l
  induction l with
  | nil => simp
  | cons a t ih =>
    by_cases h : p a <;> simp [List.dropWhile_cons, List.takeWhile_cons, h, ih]

theorem takeWhile_take (p : Char → Bool) :
    ∀ (l : List Char) (n : Nat), (l.take n).takeWhile p = (l.takeWhile p).take n := by
  intro l
  induction l with
  | nil => simp
  | cons a t ih =>
    intro n
    cases n with
    | zero => simp
    | succ m => by_cases h : p a <;> simp [h, ih]

theorem takeWhile_length_le (p : Char → Bool) (l : List Char) :
    (l.takeWhile p).length ≤ l.length := by
  have h2 := congrArg List.length (List.takeWhile_append_dropWhile p l)
  rw [List.length_append] at h2
  omega

theorem getElem_lt_takeWhile_length (p : Char → Bool) (l : List Char) (i : Nat)
    (h : i < (l.takeWhile p).length) (hl : i < l.length) : p l[i] := by
  have hx : (l.takeWhile p)[i] ∈ l.takeWhile p := List.getElem_mem h
  have hp := List.mem_takeWhile_imp hx
  have he : (l.takeWhile p)[i] = l[i] := by
    have h2 := List.getElem_append_left' (l.dropWhile p) h
    simp only [List.takeWhile_append_dropWhile] at h2
    exact h2
  rw [he] at hp
  exact hp

theorem not_spaceChar_at_takeWhile_length {s : List Char}
    (h : (s.takeWhile isSpaceChar).length < s.length) :
    isSpaceChar (s[(s.takeWhile isSpaceChar).length]) = false := by
  have hne : s.dropWhile isSpaceChar ≠ [] := by
    rw [dropWhile_eq_drop]
    intro hnil
    rw [List.drop_eq_nil_iff] at hnil
    omega
  have hhead := List.head_dropWhile_not isSpaceChar s hne
  have hre : s.dropWhile isSpaceChar = s.drop (s.takeWhile isSpaceChar).length :=
    dropWhile_eq_drop isSpaceChar s
  have hheadel : (s.dropWhile isSpaceChar).head hne
      = s[(s.takeWhile isSpaceChar).length] := by
    rw [List.head_eq_getElem]
    simp only [hre]
    simp
  rw [hheadel] at hhead
  exact hhead

theorem firstNonWs_go :
    ∀ (fuel : Nat) (s : List Char) (i : Nat), s.length - i ≤ fuel →
      firstNonWs s i = i + ((s.drop i).takeWhile isSpaceChar).length := by
  intro fuel
  induction fuel with
  | zero =>
    intro s i hf
    rw [firstNonWs, dif_neg (fun h => by omega)]
    rw [List.drop_eq_nil_of_le (by omega)]
    simp
  | succ n ih =>
    intro s i hf
    by_cases hi : i < s.length
    · have hd : s.drop i = s[i] :: s.drop (i + 1) := List.drop_eq_getElem_cons hi
      have hgetD : s.getD i ' ' = s[i] := List.getD_eq_getElem s ' ' hi
      by_cases hws : isSpaceChar s[i] = true
      · rw [firstNonWs, dif_pos ⟨hi, by rw [hgetD]; exact hws⟩]
        rw [ih s (i + 1) (by omega)]
        rw [hd, List.takeWhile_cons_of_pos hws]
        simp
        omega
      · rw [firstNonWs, dif_neg (fun h => hws (by rw [← hgetD]; exact h.2))]
        rw [hd, List.takeWhile_cons_of_neg hws]
        simp
    · rw [firstNonWs, dif_neg (fun h => by omega)]
      rw [List.drop_eq_nil_of_le (by omega)]
      simp

theorem firstNonWs_spec (s : List Char) :
    firstNonWs s 0 = (s.takeWhile isSpaceChar).length := by
  have h := firstNonWs_go s.length s 0 (by omega)
  simpa using h

theorem lastNonWs_go :
    ∀ (fuel : Nat) (s : List Char) (j : Int), (j + 1).toNat ≤ fuel →
      j < (s.length : Int) →
      lastNonWs s j =
        j - (((s.take (j + 1).toNat).reverse.takeWhile isSpaceChar).length : Int) := by
  intro fuel
  induction fuel with
  | zero =>
    intro s j hf hj
    rw [lastNonWs, dif_neg (fun h => by omega)]
    have h0 : (j + 1).toNat = 0 := by omega
    rw [h0]
    simp
  | succ n ih =>
    intro s j hf hj
    by_cases hj0 : 0 ≤ j
    · have hjn : j.toNat < s.length := by omega
      have htake : s.take (j + 1).toNat = s.take j.toNat ++ [s[j.toNat]] := by
        have h1 : (j + 1).toNat = j.toNat + 1 := by omega
        rw [h1, List.take_succ, List.getElem?_eq_getElem hjn]
        simp
      have hrev : (s.take (j + 1).toNat).reverse = s[j.toNat] :: (s.take j.toNat).reverse := by
        rw [htake]
        simp
      by_cases hws : isSpaceChar s[j.toNat] = true
      · rw [lastNonWs, dif_pos ⟨hj0, by rw [List.getD_eq_getElem s ' ' hjn]; exact hws⟩]
        rw [ih s (j - 1) (by omega) (by omega)]
        have h1 : (j - 1 + 1).toNat = j.toNat := by omega
        rw [h1, hrev, List.takeWhile_cons_of_pos hws]
        simp
        omega
      · rw [lastNonWs, dif_neg
          (fun h => hws (by rw [← List.getD_eq_getElem s ' ' hjn]; exact h.2))]
        rw [hrev, List.takeWhile_cons_of_neg hws]
        simp
    · rw [lastNonWs, dif_neg (fun h => hj0 h.1)]
      have h0 : (j + 1).toNat = 0 := by omega
      rw [h0]
      simp

theorem lastNonWs_spec (s : List Char) :
    lastNonWs s ((s.length : Int) - 1) =
      (s.length : Int) - 1 - ((s.reverse.takeWhile isSpaceChar).length : Int) := by
  have h := lastNonWs_go s.length s ((s.length : Int) - 1) (by omega) (by omega)
  have h1 : ((s.length : Int) - 1 + 1).toNat = s.length := by omega
  rw [h1, List.take_length] at h
  exact h

/-- Unless the string is all whitespace, the leading and trailing whitespace
runs do not overlap. -/
theorem runs_disjoint {s : List Char}
    (h : (s.takeWhile isSpaceChar).length < s.length) :
    (s.takeWhile isSpaceChar).length + (s.reverse.takeWhile isSpaceChar).length
      ≤ s.length := by
  by_contra hcon
  have hnws := not_spaceChar_at_takeWhile_length h
  have hidx : s.length - 1 - (s.takeWhile isSpaceChar).length
      < (s.reverse.takeWhile isSpaceChar).length := by omega
  have hlen : s.length - 1 - (s.takeWhile isSpaceChar).length < s.reverse.length := by
    simp
    omega
  have hws := getElem_lt_takeWhile_length isSpaceChar s.reverse
    (s.length - 1 - (s.takeWhile isSpaceChar).length) hidx hlen
  rw [List.getElem_reverse] at hws
  have heq : s.length - 1 - (s.length - 1 - (s.takeWhile isSpaceChar).length)
      = (s.takeWhile isSpaceChar).length := by omega
  simp only [List.length_reverse] at hlen
  have hb2 : s.length - 1 - (s.length - 1 - (s.takeWhile isSpaceChar).length)
      < s.length := by omega
  have hcast : s[s.length - 1 - (s.length - 1 - (s.takeWhile isSpaceChar).length)]
      = s[(s.takeWhile isSpaceChar).length] := by
    congr 1
  rw [hcast] at hws
  rw [hws] at hnws
  simp at hnws

/-- `strip` in closed form: the substring from the first non-whitespace
index through the last non-whitespace index. -/
theorem strip_closed (s : List Char) :
    strip s = (List.range' (s.takeWhile isSpaceChar).length
      (((s.length : Int) - (s.reverse.takeWhile isSpaceChar).length
        - (s.takeWhile isSpaceChar).length).toNat)).map (fun k => s.getD k ' ') := by
  have h1 := firstNonWs_spec s
  have h2 := lastNonWs_spec s
  simp only [strip, h1, h2]
  congr 2
  omega

theorem trimSpec_closed (s : List Char) :
    trimSpec s = (s.drop (s.takeWhile isSpaceChar).length).take
      ((s.length - (s.takeWhile isSpaceChar).length)
        - ((s.drop (s.takeWhile isSpaceChar).length).reverse.takeWhile isSpaceChar).length) := by
  unfold trimSpec
  rw [dropWhile_eq_drop isSpaceChar s]
  rw [dropWhile_eq_drop isSpaceChar (s.drop (s.takeWhile isSpaceChar).length).reverse]
  rw [List.reverse_drop]
  simp

theorem strip_eq_trimSpec (s : List Char) : strip s = trimSpec s := by
  rw [strip_closed, trimSpec_closed]
  by_cases hall : (s.takeWhile isSpaceChar).length < s.length
  · have hdisj := runs_disjoint hall
    have hrle : (s.reverse.takeWhile isSpaceChar).length ≤ s.length := by
      have := takeWhile_length_le isSpaceChar s.reverse
      simpa using this
    have hm : ((s.drop (s.takeWhile isSpaceChar).length).reverse.takeWhile isSpaceChar).length
        = (s.reverse.takeWhile isSpaceChar).length := by
      rw [List.reverse_drop, takeWhile_take]
      simp
      omega
    rw [hm]
    apply List.ext_getElem
    · simp
      omega
    · intro k h1 h2
      simp only [List.getElem_map, List.getElem_range', one_mul, List.getElem_take,
        List.getElem_drop]
      simp only [List.length_map, List.length_range'] at h1
      rw [List.getD_eq_getElem s ' ' (by omega)]
  · have htw : (s.takeWhile isSpaceChar).length = s.length := by
      have := takeWhile_length_le isSpaceChar s
      omega
    rw [htw]
    have h0 : ((s.length : Int) - (s.reverse.takeWhile isSpaceChar).length - s.length).toNat
        = 0 := by omega
    rw [h0]
    rw [List.drop_eq_nil_of_le (by omega)]
    simp


theorem dropWhile_idem (p : Char → Bool) (l : List Char) :
    (l.dropWhile p).dropWhile p = l.dropWhile p := by
  induction l with
  | nil => simp
  | cons a t ih => by_cases h : p a <;> simp [List.dropWhile_cons, h, ih]

theorem head_trimSpec_not (s : List Char) (h : trimSpec s ≠ []) :
    isSpaceChar ((trimSpec s).head h) = false := by
  have ht : trimSpec s
      = ((s.dropWhile isSpaceChar).reverse.dropWhile isSpaceChar).reverse := rfl
  have hYne : (s.dropWhile isSpaceChar).reverse.dropWhile isSpaceChar ≠ [] := by
    intro hnil
    apply h
    rw [ht, hnil]
    rfl
  have hXne : s.dropWhile isSpaceChar ≠ [] := by
    intro hnil
    apply hYne
    rw [hnil]
    rfl
  have h1 : (trimSpec s).head h
      = ((s.dropWhile isSpaceChar).reverse.dropWhile isSpaceChar).getLast hYne := by
    simp only [ht, List.head_reverse]
  have hd := dropWhile_eq_drop isSpaceChar (s.dropWhile isSpaceChar).reverse
  have h2 : ((s.dropWhile isSpaceChar).reverse.dropWhile isSpaceChar).getLast hYne
      = (s.dropWhile isSpaceChar).head hXne := by
    simp only [hd, List.getLast_drop, List.getLast_reverse]
  rw [h1, h2]
  exact List.head_dropWhile_not isSpaceChar s hXne

theorem dropWhile_trimSpec (s : List Char) :
    (trimSpec s).dropWhile isSpaceChar = trimSpec s := by
  by_cases h : trimSpec s = []
  · rw [h]
    rfl
  · have hh := head_trimSpec_not s h
    conv_lhs => rw [← List.head_cons_tail (trimSpec s) h]
    rw [List.dropWhile_cons_of_neg (by simp [hh])]
    rw [List.head_cons_tail]

theorem trimSpec_idem (s : List Char) : trimSpec (trimSpec s) = trimSpec s := by
  have h1 := dropWhile_trimSpec s
  have h2 : (trimSpec s).reverse.dropWhile isSpaceChar = (trimSpec s).reverse := by
    have hrev : (trimSpec s).reverse
        = (s.dropWhile isSpaceChar).reverse.dropWhile isSpaceChar := by
      show (((s.dropWhile isSpaceChar).reverse.dropWhile isSpaceChar).reverse).reverse
        = (s.dropWhile isSpaceChar).reverse.dropWhile isSpaceChar
      rw [List.reverse_reverse]
    rw [hrev, dropWhile_idem]
  show (((trimSpec s).dropWhile isSpaceChar).reverse.dropWhile isSpaceChar).reverse
    = trimSpec s
  rw [h1, h2, List.reverse_reverse]

theorem strip_idem (s : List Char) : strip (strip s) = strip s := by
  rw [strip_eq_trimSpec, strip_eq_trimSpec, trimSpec_idem, ← strip_eq_trimSpec]


theorem length_swap (arr : List Int) (a b : Nat) :
    (swap arr a b).length = arr.length := by
  simp [swap]

theorem getD_set_self (l : List Int) (n : Nat) (x : Int) (h : n < l.length) :
    (l.set n x).getD n 0 = x := by
  rw [List.getD_eq_getElem (l.set n x) 0 (by simp [h])]
  simp

theorem getD_set_ne (l : List Int) (n k : Nat) (x : Int) (h : k ≠ n) :
    (l.set n x).getD k 0 = l.getD k 0 := by
  simp [List.getD_eq_getElem?_getD, List.getElem?_set_ne (Ne.symm h)]

theorem getD_swap (arr : List Int) (a b k : Nat) (ha : a < arr.length)
    (hb : b < arr.length) :
    (swap arr a b).getD k 0 =
      if k = b then arr.getD a 0
      else if k = a then arr.getD b 0
      else arr.getD k 0 := by
  unfold swap
  by_cases hkb : k = b
  · subst hkb
    rw [if_pos rfl]
    exact getD_set_self _ _ _ (by simpa using hb)
  · rw [if_neg hkb, getD_set_ne _ _ _ _ hkb]
    by_cases hka : k = a
    · subst hka
      rw [if_pos rfl]
      exact getD_set_self _ _ _ ha
    · rw [if_neg hka, getD_set_ne _ _ _ _ hka]


theorem set_own_getD (l : List Int) (a : Nat) (ha : a < l.length) :
    l.set a (l.getD a 0) = l := by
  apply List.ext_getElem
  · simp
  · intro k h1 h2
    by_cases hk : a = k
    · subst hk
      rw [List.getElem_set_self]
      exact (List.getD_eq_getElem l 0 ha).symm ▸ rfl
    · exact List.getElem_set_ne hk _

theorem swap_comm (arr : List Int) (a b : Nat) (h : a ≠ b) :
    swap arr a b = swap arr b a := by
  unfold swap
  rw [List.set_comm _ _ _ h]

theorem arr_decomp (arr : List Int) (a b : Nat) (hab : a < b) (hb : b < arr.length) :
    arr = arr.take a ++ arr.getD a 0 ::
      (((arr.drop (a + 1)).take (b - a - 1)) ++ arr.getD b 0 :: arr.drop (b + 1)) := by
  have ha : a < arr.length := by omega
  have hdrop : (arr.drop (a + 1)).drop (b - a - 1) = arr.drop b := by
    rw [List.drop_drop]
    congr 1
    omega
  rw [List.getD_eq_getElem arr 0 ha, List.getD_eq_getElem arr 0 hb]
  rw [← List.drop_eq_getElem_cons hb]
  rw [← hdrop]
  rw [List.take_append_drop]
  rw [← List.drop_eq_getElem_cons ha]
  rw [List.take_append_drop]

theorem swap_decomp (arr : List Int) (a b : Nat) (hab : a < b) (hb : b < arr.length) :
    swap arr a b = arr.take a ++ arr.getD b 0 ::
      (((arr.drop (a + 1)).take (b - a - 1)) ++ arr.getD a 0 :: arr.drop (b + 1)) := by
  have ha : a < arr.length := by omega
  have hTl : (arr.take a).length = a := by
    rw [List.length_take]
    omega
  have htake : (arr.take a ++ arr.getD b 0 :: arr.drop (a + 1)).take b
      = arr.take a ++ arr.getD b 0 :: (arr.drop (a + 1)).take (b - a - 1) := by
    rw [List.take_append_eq_append_take, hTl,
      List.take_of_length_le (by rw [hTl]; omega)]
    have hba : b - a = (b - a - 1) + 1 := by omega
    rw [hba, List.take_succ_cons]
    simp
  have hdrop2 : (arr.take a ++ arr.getD b 0 :: arr.drop (a + 1)).drop (b + 1)
      = arr.drop (b + 1) := by
    rw [List.drop_append_eq_append_drop, hTl,
      List.drop_eq_nil_of_le (by rw [hTl]; omega)]
    have hba : b + 1 - a = (b - a) + 1 := by omega
    rw [hba, List.drop_succ_cons, List.drop_drop]
    have h3 : a + 1 + (b - a) = b + 1 := by omega
    rw [h3, List.nil_append]
  have hZb : b < (arr.take a ++ arr.getD b 0 :: arr.drop (a + 1)).length := by
    simp
    omega
  unfold swap
  rw [List.set_eq_take_cons_drop (arr.getD b 0) ha]
  rw [List.set_eq_take_cons_drop (arr.getD a 0) hZb]
  rw [htake, hdrop2]
  simp [List.append_assoc]

theorem swap_perm (arr : List Int) (a b : Nat) (ha : a < arr.length)
    (hb : b < arr.length) :
    List.Perm (swap arr a b) arr := by
  rcases Nat.lt_trichotomy a b with hab | hab | hab
  · rw [swap_decomp arr a b hab hb]
    conv_rhs => rw [arr_decomp arr a b hab hb]
    apply List.Perm.append_left
    exact (List.Perm.cons _ List.perm_middle).trans
      ((List.Perm.swap _ _ _).trans (List.Perm.cons _ List.perm_middle.symm))
  · subst hab
    unfold swap
    rw [List.set_set, set_own_getD arr a ha]
  · rw [swap_comm arr a b (by omega)]
    rw [swap_decomp arr b a hab ha]
    conv_rhs => rw [arr_decomp arr b a hab ha]
    apply List.Perm.append_left
    exact (List.Perm.cons _ List.perm_middle).trans
      ((List.Perm.swap _ _ _).trans (List.Perm.cons _ List.perm_middle.symm))


/-- Full functional specification of the partition loop, relative to a ghost
lower bound `lo`: the loop preserves length and multiset, only touches
indices in `[lo, high)`, and maintains the Lomuto regions
(`[lo, i]` at most the pivot, `(i, j)` above the pivot). -/
theorem partitionLoop_spec (pivot : Int) :
    ∀ (fuel : Nat) (arr : List Int) (i : Int) (j high lo : Nat),
      high - j ≤ fuel → j ≤ high → high < arr.length →
      (lo : Int) - 1 ≤ i → i < (j : Int) →
      (∀ k : Nat, lo ≤ k → (k : Int) ≤ i → arr.getD k 0 ≤ pivot) →
      (∀ k : Nat, i < (k : Int) → k < j → pivot < arr.getD k 0) →
      (partitionLoop arr pivot i j high).1.length = arr.length ∧
      List.Perm (partitionLoop arr pivot i j high).1 arr ∧
      (∀ k : Nat, lo ≤ k → (k : Int) ≤ (partitionLoop arr pivot i j high).2 →
        (partitionLoop arr pivot i j high).1.getD k 0 ≤ pivot) ∧
      (∀ k : Nat, (partitionLoop arr pivot i j high).2 < (k : Int) → k < high →
        pivot < (partitionLoop arr pivot i j high).1.getD k 0) ∧
      (∀ k : Nat, (k < lo ∨ high ≤ k) →
        (partitionLoop arr pivot i j high).1.getD k 0 = arr.getD k 0) := by
  intro fuel
  induction fuel with
  | zero =>
    intro arr i j high lo hf hjh hhl hloi hij hreg1 hreg2
    have hj : ¬ j < high := by omega
    rw [partitionLoop, if_neg hj]
    refine ⟨rfl, List.Perm.refl _, ?_, ?_, fun k _ => rfl⟩
    · intro k hk1 hk2
      exact hreg1 k hk1 hk2
    · intro k hk1 hk2
      exact hreg2 k hk1 (by omega)
  | succ n ih =>
    intro arr i j high lo hf hjh hhl hloi hij hreg1 hreg2
    by_cases hj : j < high
    · rw [partitionLoop, if_pos hj]
      by_cases hc : arr.getD j 0 ≤ pivot
      · rw [if_pos hc]
        have ha' : (i + 1).toNat < arr.length := by omega
        have hj' : j < arr.length := by omega
        have hgd := getD_swap arr (i + 1).toNat j
        have hlen' : (swap arr (i + 1).toNat j).length = arr.length :=
          length_swap arr (i + 1).toNat j
        have hreg1' : ∀ k : Nat, lo ≤ k → (k : Int) ≤ i + 1 →
            (swap arr (i + 1).toNat j).getD k 0 ≤ pivot := by
          intro k hk1 hk2
          rw [hgd k ha' hj']
          split_ifs with h1 h2
          · have he : (i + 1).toNat = j := by omega
            rw [he]
            exact hc
          · exact hc
          · exact hreg1 k hk1 (by omega)
        have hreg2' : ∀ k : Nat, i + 1 < (k : Int) → k < j + 1 →
            pivot < (swap arr (i + 1).toNat j).getD k 0 := by
          intro k hk1 hk2
          rw [hgd k ha' hj']
          split_ifs with h1 h2
          · exact hreg2 (i + 1).toNat (by omega) (by omega)
          · omega
          · exact hreg2 k (by omega) (by omega)
        obtain ⟨L1, P1, R1, R2, U1⟩ := ih (swap arr (i + 1).toNat j) (i + 1)
          (j + 1) high lo (by omega) (by omega) (by omega) (by omega) (by omega)
          hreg1' hreg2'
        refine ⟨L1.trans hlen', P1.trans (swap_perm arr (i + 1).toNat j ha' hj'),
          R1, R2, ?_⟩
        intro k hk
        rw [U1 k hk, hgd k ha' hj']
        rw [if_neg (by omega), if_neg (by omega)]
      · rw [if_neg hc]
        have hreg2' : ∀ k : Nat, i < (k : Int) → k < j + 1 →
            pivot < arr.getD k 0 := by
          intro k hk1 hk2
          by_cases hkj : k = j
          · subst hkj
            omega
          · exact hreg2 k hk1 (by omega)
        exact ih arr i (j + 1) high lo (by omega) (by omega) (by omega)
          (by omega) (by omega) hreg1 hreg2'
    · rw [partitionLoop, if_neg hj]
      refine ⟨rfl, List.Perm.refl _, ?_, ?_, fun k _ => rfl⟩
      · intro k hk1 hk2
        exact hreg1 k hk1 hk2
      · intro k hk1 hk2
        exact hreg2 k hk1 (by omega)


/-- Functional specification of `partition`: it permutes the array, touches
only the subrange `[low, high]`, places the old `arr[high]` (the pivot) at
the returned index, with smaller-or-equal elements before it and strictly
greater elements after it. -/
theorem partition_spec (arr : List Int) (low high : Nat) (hlh : low < high)
    (hh : high < arr.length) :
    (partition arr low high).1.length = arr.length ∧
    List.Perm (partition arr low high).1 arr ∧
    low ≤ (partition arr low high).2 ∧ (partition arr low high).2 ≤ high ∧
    (partition arr low high).1.getD (partition arr low high).2 0
      = arr.getD high 0 ∧
    (∀ k : Nat, low ≤ k → k < (partition arr low high).2 →
      (partition arr low high).1.getD k 0 ≤ arr.getD high 0) ∧
    (∀ k : Nat, (partition arr low high).2 < k → k ≤ high →
      arr.getD high 0 < (partition arr low high).1.getD k 0) ∧
    (∀ k : Nat, (k < low ∨ high < k) →
      (partition arr low high).1.getD k 0 = arr.getD k 0) := by
  have hidx := partitionLoop_idx (arr.getD high 0) (high - low) arr
    ((low : Int) - 1) low high (by omega) (by omega) (by omega)
  obtain ⟨L1, P1, R1, R2, U1⟩ := partitionLoop_spec (arr.getD high 0)
    (high - low) arr ((low : Int) - 1) low high low (by omega) (by omega) hh
    (by omega) (by omega)
    (fun k hk1 hk2 => by omega) (fun k hk1 hk2 => by omega)
  simp only [partition]
  set r := partitionLoop arr (arr.getD high 0) ((low : Int) - 1) low high with hr
  set pi := (r.2 + 1).toNat with hpidef
  have hmax : (max low high : Int) = high := by omega
  rw [hmax] at hidx
  have hpi : (pi : Int) = r.2 + 1 := by omega
  have hpl : low ≤ pi := by omega
  have hph : pi ≤ high := by omega
  have hpir : pi < r.1.length := by omega
  have hhr : high < r.1.length := by omega
  have hgd := getD_swap r.1 pi high
  refine ⟨?_, ?_, hpl, hph, ?_, ?_, ?_, ?_⟩
  · rw [length_swap]
    exact L1
  · exact (swap_perm r.1 pi high hpir hhr).trans P1
  · rw [hgd pi hpir hhr]
    split_ifs with h1
    · rw [h1]
      exact U1 high (Or.inr (by omega))
    · exact U1 high (Or.inr (by omega))
  · intro k hk1 hk2
    rw [hgd k hpir hhr, if_neg (by omega), if_neg (by omega)]
    exact R1 k hk1 (by omega)
  · intro k hk1 hk2
    by_cases hkh : k = high
    · rw [hkh, hgd high hpir hhr, if_pos rfl]
      exact R2 pi (by omega) (by omega)
    · rw [hgd k hpir hhr, if_neg hkh, if_neg (by omega)]
      exact R2 k (by omega) (by omega)
  · intro k hk
    rw [hgd k hpir hhr, if_neg (by omega), if_neg (by omega)]
    exact U1 k (by omega)


/-- The contiguous subrange `l[lo..hi]` of an array, as a list (proof
infrastructure for the quicksort specification). -/
def slice (l : List Int) (lo hi : Nat) : List Int :=
  (l.drop lo).take (hi + 1 - lo)

theorem mem_slice {x : Int} {l : List Int} {lo hi : Nat} :
    x ∈ slice l lo hi ↔
      ∃ k : Nat, lo ≤ k ∧ k ≤ hi ∧ k < l.length ∧ l.getD k 0 = x := by
  unfold slice
  rw [List.mem_iff_getElem]
  constructor
  · rintro ⟨i, hb, he⟩
    have hb2 : i < hi + 1 - lo ∧ lo + i < l.length := by
      simp [List.length_take] at hb
      omega
    refine ⟨lo + i, by omega, by omega, by omega, ?_⟩
    rw [List.getD_eq_getElem l 0 (by omega)]
    rw [← he]
    simp
  · rintro ⟨k, h1, h2, h3, h4⟩
    refine ⟨k - lo, by simp [List.length_take]; omega, ?_⟩
    simp only [List.getElem_take, List.getElem_drop]
    rw [← h4, List.getD_eq_getElem l 0 (by omega)]
    congr 1
    omega

theorem slice_decomp (l : List Int) (lo hi : Nat) (h : lo ≤ hi + 1) :
    l = l.take lo ++ (slice l lo hi ++ l.drop (hi + 1)) := by
  have h1 : l.drop lo = slice l lo hi ++ l.drop (hi + 1) := by
    conv_lhs => rw [← List.take_append_drop (hi + 1 - lo) (l.drop lo)]
    unfold slice
    rw [List.drop_drop]
    have h2 : lo + (hi + 1 - lo) = hi + 1 := by omega
    rw [h2]
  rw [← h1, List.take_append_drop]

theorem slice_perm {l1 l2 : List Int} (hlen : l1.length = l2.length)
    (hperm : List.Perm l1 l2) (lo hi : Nat) (hlohi : lo ≤ hi + 1)
    (hout : ∀ k : Nat, (k < lo ∨ hi < k) → l1.getD k 0 = l2.getD k 0) :
    List.Perm (slice l1 lo hi) (slice l2 lo hi) := by
  have hT : l1.take lo = l2.take lo := by
    apply List.ext_getElem
    · simp [List.length_take, hlen]
    · intro i h1 h2
      simp only [List.getElem_take]
      simp only [List.length_take] at h1
      have := hout i (Or.inl (by omega))
      rw [List.getD_eq_getElem l1 0 (by omega), List.getD_eq_getElem l2 0 (by omega)] at this
      exact this
  have hD : l1.drop (hi + 1) = l2.drop (hi + 1) := by
    apply List.ext_getElem
    · simp [hlen]
    · intro i h1 h2
      simp only [List.getElem_drop]
      simp only [List.length_drop] at h1
      have := hout (hi + 1 + i) (Or.inr (by omega))
      rw [List.getD_eq_getElem l1 0 (by omega), List.getD_eq_getElem l2 0 (by omega)] at this
      exact this
  have e1 := slice_decomp l1 lo hi (by omega)
  have e2 := slice_decomp l2 lo hi (by omega)
  rw [e1, e2, hT, hD] at hperm
  exact ((List.perm_append_right_iff _).mp ((List.perm_append_left_iff _).mp hperm))

theorem slice_all_transfer {l1 l2 : List Int} (hlen : l1.length = l2.length)
    (hperm : List.Perm l1 l2) (lo hi : Nat) (hlohi : lo ≤ hi + 1)
    (hout : ∀ k : Nat, (k < lo ∨ hi < k) → l1.getD k 0 = l2.getD k 0)
    (P : Int → Prop)
    (hP : ∀ k : Nat, lo ≤ k → k ≤ hi → k < l2.length → P (l2.getD k 0)) :
    ∀ k : Nat, lo ≤ k → k ≤ hi → k < l1.length → P (l1.getD k 0) := by
  intro k h1 h2 h3
  have hm : l1.getD k 0 ∈ slice l1 lo hi := mem_slice.mpr ⟨k, h1, h2, h3, rfl⟩
  have hm2 : l1.getD k 0 ∈ slice l2 lo hi :=
    (slice_perm hlen hperm lo hi hlohi hout).mem_iff.mp hm
  obtain ⟨k2, g1, g2, g3, g4⟩ := mem_slice.mp hm2
  rw [← g4]
  exact hP k2 g1 g2 g3


theorem quicksort_eq_of_lt {arr : List Int} {low : Nat} {high : Int}
    (h : (low : Int) < high) :
    quicksort arr low high =
      quicksort (quicksort (partition arr low high.toNat).1 low
        (((partition arr low high.toNat).2 : Int) - 1))
        ((partition arr low high.toNat).2 + 1) high := by
  rw [quicksort]
  rw [dif_pos h]

theorem quicksort_eq_of_ge {arr : List Int} {low : Nat} {high : Int}
    (h : ¬ (low : Int) < high) : quicksort arr low high = arr := by
  rw [quicksort]
  rw [dif_neg h]

/-- Master specification of `quicksort` on the subrange `[low, high]`: it
preserves length and multiset, does not touch entries outside the subrange,
and leaves the subrange sorted. -/
theorem quicksort_spec :
    ∀ (fuel : Nat) (arr : List Int) (low : Nat) (high : Int),
      (high + 1 - low).toNat ≤ fuel → high < (arr.length : Int) →
      (quicksort arr low high).length = arr.length ∧
      List.Perm (quicksort arr low high) arr ∧
      (∀ k : Nat, ((k : Int) < low ∨ high < k) →
        (quicksort arr low high).getD k 0 = arr.getD k 0) ∧
      (∀ k1 k2 : Nat, low ≤ k1 → k1 ≤ k2 → (k2 : Int) ≤ high →
        (quicksort arr low high).getD k1 0 ≤ (quicksort arr low high).getD k2 0) := by
  intro fuel
  induction fuel with
  | zero =>
    intro arr low high hf hh
    have hng : ¬ (low : Int) < high := by omega
    rw [quicksort_eq_of_ge hng]
    refine ⟨rfl, List.Perm.refl _, fun k _ => rfl, ?_⟩
    intro k1 k2 h1 h2 h3
    exact absurd h3 (by omega)
  | succ n ih =>
    intro arr low high hf hh
    by_cases hlt : (low : Int) < high
    · rw [quicksort_eq_of_lt hlt]
      have hhni : (high.toNat : Int) = high := by omega
      obtain ⟨PL, PP, Ppl, Pph, Ppiv, Ple, Pgt, PU⟩ :=
        partition_spec arr low high.toNat (by omega) (by omega)
      set P := partition arr low high.toNat with hPdef
      obtain ⟨AL, AP, AU, AS⟩ := ih P.1 low ((P.2 : Int) - 1)
        (by omega) (by omega)
      set A := quicksort P.1 low ((P.2 : Int) - 1) with hAdef
      obtain ⟨BL, BP, BU, BS⟩ := ih A (P.2 + 1) high
        (by omega) (by omega)
      set B := quicksort A (P.2 + 1) high with hBdef
      have f0 : A.getD P.2 0 = arr.getD high.toNat 0 := by
        rw [AU P.2 (Or.inr (by omega))]
        exact Ppiv
      have f1 : B.getD P.2 0 = arr.getD high.toNat 0 := by
        rw [BU P.2 (Or.inl (by omega))]
        exact f0
      have f2 : ∀ k : Nat, low ≤ k → k < P.2 →
          B.getD k 0 ≤ arr.getD high.toNat 0 := by
        intro k hk1 hk2
        rw [BU k (Or.inl (by omega))]
        refine slice_all_transfer AL AP low (P.2 - 1) (by omega)
          (fun k' hk' => AU k' (by omega)) (fun x => x ≤ arr.getD high.toNat 0)
          (fun k' g1 g2 g3 => Ple k' g1 (by omega)) k hk1 (by omega) (by omega)
      have f3 : ∀ k : Nat, P.2 < k → (k : Int) ≤ high →
          arr.getD high.toNat 0 < B.getD k 0 := by
        intro k hk1 hk2
        refine slice_all_transfer BL BP (P.2 + 1) high.toNat (by omega)
          (fun k' hk' => BU k' (by omega)) (fun x => arr.getD high.toNat 0 < x)
          (fun k' g1 g2 g3 => ?_) k (by omega) (by omega) (by omega)
        rw [AU k' (Or.inr (by omega))]
        exact Pgt k' (by omega) g2
      refine ⟨BL.trans (AL.trans PL), BP.trans (AP.trans PP), ?_, ?_⟩
      · intro k hk
        rw [BU k (by omega), AU k (by omega), PU k (by omega)]
      · intro k1 k2 h1 h12 h2
        by_cases hk2p : k2 < P.2
        · rw [BU k1 (Or.inl (by omega)), BU k2 (Or.inl (by omega))]
          exact AS k1 k2 h1 h12 (by omega)
        · by_cases hk1p : k1 < P.2
          · by_cases hk2e : k2 = P.2
            · rw [hk2e, f1]
              exact f2 k1 h1 hk1p
            · exact le_of_lt (lt_of_le_of_lt (f2 k1 h1 hk1p)
                (f3 k2 (by omega) h2))
          · by_cases hk1e : k1 = P.2
            · by_cases hk2e : k2 = P.2
              · rw [hk1e, hk2e]
              · rw [hk1e, f1]
                exact le_of_lt (f3 k2 (by omega) h2)
            · exact BS k1 k2 (by omega) h12 h2
    · rw [quicksort_eq_of_ge hlt]
      refine ⟨rfl, List.Perm.refl _, fun k _ => rfl, ?_⟩
      intro k1 k2 h1 h2 h3
      have he : k1 = k2 := by omega
      rw [he]


/-- Top-level quicksort call, as issued by `processFile`: the result is a
permutation of the input and is sorted. -/
theorem quicksort_sorts (arr : List Int) :
    List.Perm (quicksort arr 0 ((arr.length : Int) - 1)) arr ∧
    List.Sorted (· ≤ ·) (quicksort arr 0 ((arr.length : Int) - 1)) := by
  obtain ⟨L, P, U, S⟩ := quicksort_spec arr.length arr 0
    ((arr.length : Int) - 1) (by omega) (by omega)
  refine ⟨P, ?_⟩
  apply List.pairwise_iff_getElem.mpr
  intro i j hi hj hij
  have h := S i j (by omega) (by omega) (by omega)
  rw [List.getD_eq_getElem _ 0 hi, List.getD_eq_getElem _ 0 hj] at h
  exact h

theorem processLine_ok_some_range {line : List Char} {v : Int}
    (h : processLine line = .ok (some v)) : -1023 ≤ v ∧ v ≤ 1024 := by
  unfold processLine at h
  by_cases he : (strip line).isEmpty
  · rw [if_pos he] at h
    exact absurd h (by simp)
  · rw [if_neg he] at h
    cases hi : is_integer (strip line) with
    | error e =>
      rw [hi] at h
      exact absurd h (by simp)
    | ok b =>
      rw [hi] at h
      cases b with
      | false => exact absurd h (by simp)
      | true =>
        cases hp : pyInt (strip line) with
        | error e =>
          rw [hp] at h
          exact absurd h (by simp)
        | ok n =>
          rw [hp] at h
          dsimp only at h
          by_cases hr : -1023 ≤ n ∧ n ≤ 1024
          · rw [if_pos hr] at h
            simp only [Except.ok.injEq, Option.some.injEq] at h
            omega
          · rw [if_neg hr] at h
            exact absurd h (by simp)

theorem insertKey_nodup {acc : List Int} {v : Int} (h : acc.Nodup) :
    (insertKey acc v).Nodup := by
  unfold insertKey
  by_cases hv : v ∈ acc
  · rw [if_pos hv]
    exact h
  · rw [if_neg hv]
    simp [List.nodup_append, h, hv]

theorem mem_insertKey {acc : List Int} {v x : Int} :
    x ∈ insertKey acc v ↔ x ∈ acc ∨ x = v := by
  unfold insertKey
  by_cases hv : v ∈ acc
  · rw [if_pos hv]
    constructor
    · exact Or.inl
    · rintro (h | rfl)
      · exact h
      · exact hv
  · rw [if_neg hv]
    simp

theorem collectAux_ok :
    ∀ (lines : List (List Char)) (acc l : List Int),
      collectAux acc lines = .ok l →
      (acc.Nodup → l.Nodup) ∧
      (∀ x : Int, x ∈ l ↔ x ∈ acc ∨
        ∃ line ∈ lines, processLine line = .ok (some x)) := by
  intro lines
  induction lines with
  | nil =>
    intro acc l h
    simp only [collectAux, Except.ok.injEq] at h
    subst h
    exact ⟨id, by simp⟩
  | cons line rest ih =>
    intro acc l h
    rw [collectAux] at h
    cases hp : processLine line with
    | error e =>
      rw [hp] at h
      exact absurd h (by simp)
    | ok o =>
      rw [hp] at h
      cases o with
      | none =>
        obtain ⟨h1, h2⟩ := ih acc l h
        refine ⟨h1, fun x => ?_⟩
        rw [h2 x]
        constructor
        · rintro (hx | ⟨line', hl, hpl⟩)
          · exact Or.inl hx
          · exact Or.inr ⟨line', List.mem_cons_of_mem _ hl, hpl⟩
        · rintro (hx | ⟨line', hl, hpl⟩)
          · exact Or.inl hx
          · rcases List.mem_cons.mp hl with rfl | hl'
            · rw [hp] at hpl
              exact absurd hpl (by simp)
            · exact Or.inr ⟨line', hl', hpl⟩
      | some v =>
        obtain ⟨h1, h2⟩ := ih (insertKey acc v) l h
        refine ⟨fun hn => h1 (insertKey_nodup hn), fun x => ?_⟩
        rw [h2 x, mem_insertKey]
        constructor
        · rintro ((hx | rfl) | ⟨line', hl, hpl⟩)
          · exact Or.inl hx
          · exact Or.inr ⟨line, List.mem_cons_self _ _, hp⟩
          · exact Or.inr ⟨line', List.mem_cons_of_mem _ hl, hpl⟩
        · rintro (hx | ⟨line', hl, hpl⟩)
          · exact Or.inl (Or.inl hx)
          · rcases List.mem_cons.mp hl with rfl | hl'
            · rw [hp] at hpl
              simp only [Except.ok.injEq, Option.some.injEq] at hpl
              exact Or.inl (Or.inr hpl.symm)
            · exact Or.inr ⟨line', hl', hpl⟩

theorem readUniqueIntegers_ok {lines : List (List Char)} {l : List Int}
    (h : readUniqueIntegers lines = .ok l) :
    l.Nodup ∧
    (∀ x : Int, x ∈ l ↔ ∃ line ∈ lines, processLine line = .ok (some x)) ∧
    (∀ x ∈ l, -1023 ≤ x ∧ x ≤ 1024) := by
  obtain ⟨h1, h2⟩ := collectAux_ok lines [] l h
  refine ⟨h1 List.nodup_nil, fun x => ?_, fun x hx => ?_⟩
  · rw [h2 x]
    simp
  · have hm := (h2 x).mp hx
    simp only [List.not_mem_nil, false_or] at hm
    obtain ⟨line, _, hpl⟩ := hm
    exact processLine_ok_some_range hpl

theorem collect_perm {lines1 lines2 : List (List Char)} {l1 l2 : List Int}
    (hp : List.Perm lines1 lines2)
    (h1 : readUniqueIntegers lines1 = .ok l1)
    (h2 : readUniqueIntegers lines2 = .ok l2) : List.Perm l1 l2 := by
  obtain ⟨n1, m1, _⟩ := readUniqueIntegers_ok h1
  obtain ⟨n2, m2, _⟩ := readUniqueIntegers_ok h2
  apply (List.perm_ext_iff_of_nodup n1 n2).mpr
  intro a
  rw [m1 a, m2 a]
  constructor
  · rintro ⟨line, hl, hpl⟩
    exact ⟨line, hp.subset hl, hpl⟩
  · rintro ⟨line, hl, hpl⟩
    exact ⟨line, hp.symm.subset hl, hpl⟩


/-- Abstract I/O environment for one `processFile` run: whether the output
directory is absent and its creation fails, the input file's lines (`none`
models an `IOError` when opening/reading the input), whether opening the
output file raises `IOError`, and `writeFailAt = some k` models an `IOError`
raised by the write of the `k`-th output line (counting from 0). -/
structure Env where
  outputDirMissing : Bool
  mkdirFails : Bool
  inputLines : Option (List (List Char))
  openOutputFails : Bool
  writeFailAt : Option Nat

/-- Effect-level embedding of `UniqueInt.processFile` (src/uniqueint.py:10-51).
The result is `(success, file)`: `success` is false exactly on the paths that
print an error and return `(0, 0)`; `file` is the final state of the output
file (`none` when it was never created, otherwise the integers written to
it).  Opening the output file with mode `w` creates/truncates it, so a write
failure at line `k` leaves a file holding the first `k` sorted integers; the
code has no cleanup path that removes it. -/
def processFile (env : Env) : Bool × Option (List Int) :=
  if env.outputDirMissing && env.mkdirFails then (false, none)
  else
    match env.inputLines with
    | none => (false, none)
    | some lines =>
      match readUniqueIntegers lines with
      | .error _ => (false, none)
      | .ok ints =>
        if env.openOutputFails then (false, none)
        else
          match env.writeFailAt with
          | some k =>
            if k < ints.length then
              (false, some ((quicksort ints 0 ((ints.length : Int) - 1)).take k))
            else (true, some (quicksort ints 0 ((ints.length : Int) - 1)))
          | none => (true, some (quicksort ints 0 ((ints.length : Int) - 1)))

theorem processFile_fail_characterization (env : Env) :
    ((processFile env).1 = false →
      (processFile env).2 = none ∨
      ∃ (k : Nat) (lines : List (List Char)) (ints : List Int),
        env.writeFailAt = some k ∧ env.inputLines = some lines ∧
        readUniqueIntegers lines = .ok ints ∧ k < ints.length ∧
        (processFile env).2 =
          some ((quicksort ints 0 ((ints.length : Int) - 1)).take k)) ∧
    (env.inputLines = none → processFile env = (false, none)) := by
  obtain ⟨d, m, il, oo, wf⟩ := env
  constructor
  · intro hfail
    by_cases h1 : (d && m) = true
    · simp [processFile, h1]
    · cases il with
      | none => simp [processFile, h1]
      | some lines =>
        cases hr : readUniqueIntegers lines with
        | error e => simp [processFile, h1, hr]
        | ok ints =>
          by_cases h2 : oo = true
          · simp [processFile, h1, hr, h2]
          · cases wf with
            | none => simp [processFile, h1, hr, h2] at hfail
            | some k =>
              by_cases h3 : k < ints.length
              · right
                exact ⟨k, lines, ints, rfl, rfl, hr, h3,
                  by simp [processFile, h1, hr, h2, h3]⟩
              · simp [processFile, h1, hr, h2, h3] at hfail
  · intro hil
    subst hil
    by_cases h1 : (d && m) = true <;> simp [processFile, h1]


theorem eval_read_12 : readUniqueIntegers [['1'], ['2']] = .ok [1, 2] := by
  simp [readUniqueIntegers, collectAux, insertKey, processLine, strip, firstNonWs,
    lastNonWs, is_integer, pyIsdigit, pyDigitChar, pyInt, pyDecimalChar, digitsVal,
    isSpaceChar]
  try decide

theorem eval_read_21 : readUniqueIntegers [['2'], ['1']] = .ok [2, 1] := by
  simp [readUniqueIntegers, collectAux, insertKey, processLine, strip, firstNonWs,
    lastNonWs, is_integer, pyIsdigit, pyDigitChar, pyInt, pyDecimalChar, digitsVal,
    isSpaceChar]
  try decide

theorem eval_read_313 : readUniqueIntegers [['3'], ['1'], ['3']] = .ok [3, 1] := by
  simp [readUniqueIntegers, collectAux, insertKey, processLine, strip, firstNonWs,
    lastNonWs, is_integer, pyIsdigit, pyDigitChar, pyInt, pyDecimalChar, digitsVal,
    isSpaceChar]
  try decide

/-- C1: for every list of integers `arr`, after `quicksort(arr, 0, len(arr)-1)`
the array is in non-decreasing order and is a permutation of the original
list (the sort rearranges exactly the original elements). -/
theorem claim_C1 (arr : List Int) :
    List.Perm (quicksort arr 0 ((arr.length : Int) - 1)) arr ∧
    List.Sorted (· ≤ ·) (quicksort arr 0 ((arr.length : Int) - 1)) :=
  quicksort_sorts arr

/-- Witness for C1: the specification evaluated at the concrete array
`[3, 1, 2]`. -/
theorem claim_C1_witness :
    List.Perm (quicksort [3, 1, 2] 0 ((([3, 1, 2] : List Int).length : Int) - 1))
      [3, 1, 2] ∧
    List.Sorted (· ≤ ·)
      (quicksort [3, 1, 2] 0 ((([3, 1, 2] : List Int).length : Int) - 1)) :=
  claim_C1 [3, 1, 2]

/-- C2: boundary behaviour of `processLine` — `-1023`, `1024`, `+5` and
`" 7\t"` are accepted with the stated values, `-1024`, `1025`, the empty
line, `12a` and `--5` all yield `None`; but on the superscript-digit line
`"²"` the function raises `ValueError` instead of returning `None`, so the
claim's "in every other case it returns None" fails on the code. -/
theorem claim_C2 :
    processLine ['-', '1', '0', '2', '3'] = .ok (some (-1023)) ∧
    processLine ['1', '0', '2', '4'] = .ok (some 1024) ∧
    processLine ['-', '1', '0', '2', '4'] = .ok none ∧
    processLine ['1', '0', '2', '5'] = .ok none ∧
    processLine ['+', '5'] = .ok (some 5) ∧
    processLine [' ', '7', '\t'] = .ok (some 7) ∧
    processLine [] = .ok none ∧
    processLine ['1', '2', 'a'] = .ok none ∧
    processLine ['-', '-', '5'] = .ok none ∧
    processLine ['²'] = .error PyExn.valueError := by
  refine ⟨?_, ?_, ?_, ?_, ?_, ?_, ?_, ?_, ?_, ?_⟩ <;>
    simp [processLine, strip, firstNonWs, lastNonWs, is_integer, pyIsdigit,
      pyDigitChar, pyInt, pyDecimalChar, digitsVal, isSpaceChar] <;>
    first
      | decide
      | skip

/-- C3: `processLine` is not exception-free on arbitrary Unicode input: on
the line `"²"` (U+00B2, SUPERSCRIPT TWO) the `is_integer` guard passes
(Python's `str.isdigit` classifies it as a digit) but `int(·)` rejects it,
so `processLine` raises `ValueError` instead of returning a normal
outcome. -/
theorem claim_C3 :
    is_integer ['²'] = .ok true ∧
    pyInt ['²'] = .error PyExn.valueError ∧
    processLine ['²'] = .error PyExn.valueError := by
  refine ⟨?_, ?_, ?_⟩ <;>
    simp [processLine, strip, firstNonWs, lastNonWs, is_integer, pyIsdigit,
      pyDigitChar, pyInt, pyDecimalChar, digitsVal, isSpaceChar] <;>
    first
      | decide
      | skip

/-- C4: whenever `readUniqueIntegers` returns a list, that list has no
duplicates, every element lies in `[-1023, 1024]`, a value is in the list
iff some input line parses to it, and inserting a value already present in
the unique set is a no-op. -/
theorem claim_C4 (lines : List (List Char)) (l : List Int)
    (h : readUniqueIntegers lines = .ok l) :
    l.Nodup ∧
    (∀ v ∈ l, -1023 ≤ v ∧ v ≤ 1024) ∧
    (∀ v : Int, v ∈ l ↔ ∃ line ∈ lines, processLine line = .ok (some v)) ∧
    (∀ (acc : List Int) (v : Int), v ∈ acc → insertKey acc v = acc) := by
  obtain ⟨h1, h2, h3⟩ := readUniqueIntegers_ok h
  exact ⟨h1, h3, h2, fun acc v hv => by simp [insertKey, hv]⟩

/-- Witness for C4: the specification evaluated on the concrete input lines
`["3", "1", "3"]`, which collect to `[3, 1]`. -/
theorem claim_C4_witness :
    readUniqueIntegers [['3'], ['1'], ['3']] = .ok [3, 1] ∧
    (([3, 1] : List Int).Nodup ∧
      (∀ v ∈ ([3, 1] : List Int), -1023 ≤ v ∧ v ≤ 1024) ∧
      (∀ v : Int, v ∈ ([3, 1] : List Int) ↔
        ∃ line ∈ [['3'], ['1'], ['3']], processLine line = .ok (some v)) ∧
      (∀ (acc : List Int) (v : Int), v ∈ acc → insertKey acc v = acc)) :=
  ⟨eval_read_313, claim_C4 [['3'], ['1'], ['3']] [3, 1] eval_read_313⟩

/-- C5: `is_integer` accepts an optional single sign and then requires
every remaining character to pass Python's `str.isdigit`; on ASCII input
this coincides with "one or more decimal digits" (leading zeros accepted,
bare sign rejected), but `"²"` shows the digit class is strictly larger
than the decimal digits, refuting the claim's "decimal digits" reading. -/
theorem claim_C5 :
    is_integer ['²'] = .ok true ∧
    pyDecimalChar '²' = false ∧
    is_integer ['-'] = .ok false ∧
    is_integer ['+', '5'] = .ok true ∧
    is_integer ['0', '0', '7'] = .ok true ∧
    is_integer ['1', '2', 'a'] = .ok false := by
  refine ⟨?_, ?_, ?_, ?_, ?_, ?_⟩ <;>
    simp [is_integer, pyIsdigit, pyDigitChar, pyDecimalChar] <;>
    first
      | decide
      | skip

/-- C6: `strip` removes exactly the leading and trailing occurrences of
space, tab and newline (and nothing else — a carriage return stays), leaves
the interior unchanged, and maps all-whitespace input to the empty string:
it coincides with the dropWhile-based trimming function `trimSpec`. -/
theorem claim_C6 :
    (∀ s : List Char, strip s = trimSpec s) ∧
    strip ['\r', '5', '\r'] = ['\r', '5', '\r'] ∧
    strip [' ', '\t', '\n'] = [] := by
  refine ⟨strip_eq_trimSpec, ?_, ?_⟩ <;>
    simp [strip, firstNonWs, lastNonWs, isSpaceChar] <;>
    first
      | decide
      | skip

/-- C7 counterexample: a run in which the write of the first output line
fails is a failed run (`success = false`), yet the output file exists — it
was created and truncated by opening in mode `w` — so "produces no output
file" is false for the code. -/
theorem claim_C7_counterexample :
    processFile ⟨false, false, some [['1']], false, some 0⟩ = (false, some []) := by
  simp [processFile, readUniqueIntegers, collectAux, insertKey, processLine,
    strip, firstNonWs, lastNonWs, is_integer, pyIsdigit, pyDigitChar, pyInt,
    pyDecimalChar, digitsVal, isSpaceChar, quicksort]
  try decide

/-- C7 (amended): on every failed run the output file either does not exist
(the failure came before the output file was opened: missing input,
directory-creation failure, read failure, or open failure) or, when a write
of line `k` failed, it holds exactly the first `k` sorted integers (the
partial file is not removed); and after a read failure no list is returned
and no output file is produced. -/
theorem claim_C7 (env : Env) :
    ((processFile env).1 = false →
      (processFile env).2 = none ∨
      ∃ (k : Nat) (lines : List (List Char)) (ints : List Int),
        env.writeFailAt = some k ∧ env.inputLines = some lines ∧
        readUniqueIntegers lines = .ok ints ∧ k < ints.length ∧
        (processFile env).2 =
          some ((quicksort ints 0 ((ints.length : Int) - 1)).take k)) ∧
    (env.inputLines = none → processFile env = (false, none)) :=
  processFile_fail_characterization env

/-- Witness for C7: the amended claim evaluated at a concrete environment
whose first write fails, and at one whose input read fails. -/
theorem claim_C7_witness :
    (processFile ⟨false, false, some [['1']], false, some 0⟩).1 = false ∧
    ((processFile ⟨false, false, some [['1']], false, some 0⟩).2 = none ∨
      ∃ (k : Nat) (lines : List (List Char)) (ints : List Int),
        (some 0 : Option Nat) = some k ∧
        (some [['1']] : Option (List (List Char))) = some lines ∧
        readUniqueIntegers lines = .ok ints ∧ k < ints.length ∧
        (processFile ⟨false, false, some [['1']], false, some 0⟩).2 =
          some ((quicksort ints 0 ((ints.length : Int) - 1)).take k)) ∧
    processFile ⟨false, false, none, false, none⟩ = (false, none) :=
  ⟨by
    simp [processFile, readUniqueIntegers, collectAux, insertKey, processLine,
      strip, firstNonWs, lastNonWs, is_integer, pyIsdigit, pyDigitChar, pyInt,
      pyDecimalChar, digitsVal, isSpaceChar]
    try decide,
   (claim_C7 ⟨false, false, some [['1']], false, some 0⟩).1 (by
    simp [processFile, readUniqueIntegers, collectAux, insertKey, processLine,
      strip, firstNonWs, lastNonWs, is_integer, pyIsdigit, pyDigitChar, pyInt,
      pyDecimalChar, digitsVal, isSpaceChar]
    try decide),
   (claim_C7 ⟨false, false, none, false, none⟩).2 rfl⟩

/-- C8: processing two permuted line sequences (collect the unique in-range
integers, then quicksort the whole list) yields the same sorted result. -/
theorem claim_C8 {lines1 lines2 : List (List Char)} {l1 l2 : List Int}
    (hp : List.Perm lines1 lines2)
    (h1 : readUniqueIntegers lines1 = .ok l1)
    (h2 : readUniqueIntegers lines2 = .ok l2) :
    quicksort l1 0 ((l1.length : Int) - 1)
      = quicksort l2 0 ((l2.length : Int) - 1) := by
  have hperm := collect_perm hp h1 h2
  have s1 := quicksort_sorts l1
  have s2 := quicksort_sorts l2
  exact List.eq_of_perm_of_sorted (s1.1.trans (hperm.trans s2.1.symm)) s1.2 s2.2

/-- Witness for C8: the lines `["1", "2"]` and their permutation
`["2", "1"]` collect to `[1, 2]` and `[2, 1]` and sort to the same list. -/
theorem claim_C8_witness :
    List.Perm [['1'], ['2']] [['2'], ['1']] ∧
    readUniqueIntegers [['1'], ['2']] = .ok [1, 2] ∧
    readUniqueIntegers [['2'], ['1']] = .ok [2, 1] ∧
    quicksort [1, 2] 0 ((([1, 2] : List Int).length : Int) - 1)
      = quicksort [2, 1] 0 ((([2, 1] : List Int).length : Int) - 1) :=
  ⟨List.Perm.swap _ _ _, eval_read_12, eval_read_21,
    claim_C8 (List.Perm.swap _ _ _) eval_read_12 eval_read_21⟩

/-- C9: `quicksort` terminates (it is a total function of this
development); on a subrange of length at most one (`low ≥ high`) it
performs no action, and otherwise `partition` returns an index within
`[low, high]`, so each recursive call operates on a strictly smaller
subrange. -/
theorem claim_C9 :
    (∀ (arr : List Int) (low : Nat) (high : Int),
      ¬ (low : Int) < high → quicksort arr low high = arr) ∧
    (∀ (arr : List Int) (low high : Nat), low ≤ high →
      low ≤ (partition arr low high).2 ∧ (partition arr low high).2 ≤ high) :=
  ⟨fun _ _ _ h => quicksort_eq_of_ge h, fun _ _ _ h => partition_idx h⟩

/-- Witness for C9: the base case and the pivot-index bounds at concrete
inputs. -/
theorem claim_C9_witness :
    quicksort [5, 2] 1 0 = [5, 2] ∧
    0 ≤ (partition [3, 1, 2] 0 2).2 ∧ (partition [3, 1, 2] 0 2).2 ≤ 2 :=
  ⟨claim_C9.1 [5, 2] 1 0 (by decide),
    (claim_C9.2 [3, 1, 2] 0 2 (by decide)).1,
    (claim_C9.2 [3, 1, 2] 0 2 (by decide)).2⟩

/-- C10: `strip` is idempotent — trimming an already-trimmed string changes
nothing. -/
theorem claim_C10 (s : List Char) : strip (strip s) = strip s :=
  strip_idem s

/-- Witness for C10: idempotence evaluated at a concrete string. -/
theorem claim_C10_witness :
    strip (strip [' ', '7', '\t']) = strip [' ', '7', '\t'] :=
  claim_C10 [' ', '7', '\t']

end UniqueInt
